import Mathlib

/-!
Verification of the trice ID-managed source-rewriting engine core.

Shallow embedding of:
* `internal/id/manage.go` — the ID allocator (`newID`, `newRandomID`,
  `newUpwardID`, `newDownwardID`) and the format-specifier reconciler
  (`AddFmtCount`),
* `internal/id/cachedClean.go` — the cache-coherent clean step
  (`triceIDCleaning`).

Modelling conventions:
* `TriceID` is a non-negative integer (data model of the spec), modelled
  as `Nat`.  The Go source computes `interval := int(max - min + 1)`;
  we write `max + 1 - min`, which is `0` exactly when the Go value is
  `<= 0`, and both cases lead to the fatal "no new ID possible" exit,
  modelled as `none`.
* Go maps are modelled as association lists; a `for k := range m` scan
  that only tests membership is modelled by `List.any`, and a
  value-rewriting pass whose key set is fixed is modelled by `List.map`.
* Fatal exits (`msg.FatalInfoOnFalse`) are modelled as `none`; the
  unbounded random retry loop is given explicit fuel, `none` on
  exhaustion.
* Output that is purely diagnostic (msg.Tell, fmt.Fprintln reports) is
  not part of the state and is elided, except for the "Less than 12.5%
  IDs free!" warning of `newRandomID`, which claims C9 is about; it is
  returned as a `Bool` flag.
-/

/-- TriceID: non-negative integer identifier (spec §3 data model). -/
abbrev TriceID := Nat

/-- TriceFmt record from the trice sources: trace type tag and format string. -/
structure TriceFmt where
  «Type» : String
  Strg : String
deriving DecidableEq, Repr

/-- The ID catalog `TriceIDLookUp` (Go: `map[TriceID]TriceFmt`),
modelled as an association list of key/value pairs. -/
abbrev TriceIDLookUp := List (TriceID × TriceFmt)

/-- Membership of `id` in the key set of `ilu`; models the Go scan
`for k := range ilu { if id == k { ... } }`. -/
def isKey (ilu : TriceIDLookUp) (id : Nat) : Bool :=
  ilu.any (fun p => p.1 == id)

/-- The retry loop of `newUpwardID`: while the candidate is a used key,
increment it and rescan (the `goto nextTry` loop).  Fuel bounds the
number of scans; the caller passes `interval`, which we prove
sufficient whenever a free ID exists in range. -/
def upwardSearch (ilu : TriceIDLookUp) : Nat → Nat → Nat
  | id, 0 => id
  | id, fuel + 1 => if isKey ilu id then upwardSearch ilu (id + 1) fuel else id

/-- The retry loop of `newDownwardID`: while the candidate is a used key,
decrement it and rescan. -/
def downwardSearch (ilu : TriceIDLookUp) : Nat → Nat → Nat
  | id, 0 => id
  | id, fuel + 1 => if isKey ilu id then downwardSearch ilu (id - 1) fuel else id

/-- Go `newUpwardID`: fatal (`none`) unless `freeIDs > 0`; starts at
`min`, returns immediately on an empty catalog, otherwise searches
upward for the first unused ID. -/
def newUpwardID (ilu : TriceIDLookUp) (min max : Nat) : Option Nat :=
  let interval := max + 1 - min
  if interval ≤ ilu.length then none
  else if ilu.length = 0 then some min
  else some (upwardSearch ilu min interval)

/-- Go `newDownwardID`: fatal (`none`) unless `freeIDs > 0`; starts at
`max` and searches downward for the first unused ID. -/
def newDownwardID (ilu : TriceIDLookUp) (min max : Nat) : Option Nat :=
  let interval := max + 1 - min
  if interval ≤ ilu.length then none
  else if ilu.length = 0 then some max
  else some (downwardSearch ilu max interval)

/-- The redraw loop of `newRandomID`: candidate `min + draws i % interval`
(`rand.Intn interval` modelled by an arbitrary draw stream reduced mod
`interval`); on a key collision redraw with the next stream element. -/
def randFind (ilu : TriceIDLookUp) (min interval : Nat) (draws : Nat → Nat) :
    Nat → Nat → Option Nat
  | _, 0 => none
  | i, fuel + 1 =>
    let id := min + draws i % interval
    if isKey ilu id then randFind ilu min interval draws (i + 1) fuel else some id

/-- Go `newRandomID`: fatal (`none`, no warning) unless `freeIDs > 0`;
emits the "Less than 12.5% IDs free!" warning (second component) iff
`freeIDs < interval >>> 3`; draws a first candidate, returns it at once
when the catalog is empty, otherwise runs the redraw loop. -/
def newRandomID (ilu : TriceIDLookUp) (min max : Nat)
    (draws : Nat → Nat) (fuel : Nat) : Option Nat × Bool :=
  let interval := max + 1 - min
  if interval ≤ ilu.length then (none, false)
  else
    let warn := decide (interval - ilu.length < interval >>> 3)
    if ilu.length = 0 then (some (min + draws 0 % interval), warn)
    else (randFind ilu min interval draws 0 fuel, warn)

/-- Go `newID`: dispatch on the search-method string; an unknown method
reports an error and returns ID `0`.  The second component records
whether the low-free-IDs warning was emitted (only `newRandomID` has
one). -/
def newID (ilu : TriceIDLookUp) (min max : Nat) (searchMethod : String)
    (draws : Nat → Nat) (fuel : Nat) : Option Nat × Bool :=
  if searchMethod == ("random") then newRandomID ilu min max draws fuel
  else if searchMethod == ("upward") then (newUpwardID ilu min max, false)
  else if searchMethod == ("downward") then (newDownwardID ilu min max, false)
  else (some 0, false)

section AllocatorLemmas

lemma isKey_iff_mem (ilu : TriceIDLookUp) (id : Nat) :
    isKey ilu id = true ↔ id ∈ ilu.map Prod.fst := by
  simp [isKey, List.any_eq_true, List.mem_map, beq_iff_eq]

lemma isKey_nil (id : Nat) : isKey [] id = false := rfl

/-- Pigeonhole: if the catalog has fewer entries than an injective family
of `interval` candidate IDs, some candidate is free. -/
lemma exists_free (ilu : TriceIDLookUp) (interval : Nat)
    (h : ilu.length < interval) (f : Nat → Nat)
    (hf : ∀ i ∈ List.range interval, ∀ j ∈ List.range interval, f i = f j → i = j) :
    ∃ j, j < interval ∧ isKey ilu (f j) = false := by
  by_contra hcon
  push_neg at hcon
  have hall : ∀ j, j < interval → isKey ilu (f j) = true := by
    intro j hj
    have := hcon j hj
    cases hk : isKey ilu (f j) with
    | false => exact absurd hk this
    | true => rfl
  have hnd : ((List.range interval).map f).Nodup :=
    List.Nodup.map_on hf (List.nodup_range interval)
  have hsub : (List.range interval).map f ⊆ ilu.map Prod.fst := by
    intro x hx
    rcases List.mem_map.mp hx with ⟨j, hj, rfl⟩
    exact (isKey_iff_mem ilu (f j)).mp (hall j (List.mem_range.mp hj))
  have hsp := List.subperm_of_subset hnd hsub
  have hlen := hsp.length_le
  simp [List.length_map, List.length_range] at hlen
  omega

/-- `upwardSearch` lands exactly on `id + j₀` where `j₀` is the least
offset whose candidate is free, provided the fuel covers `j₀`. -/
lemma upwardSearch_eq (ilu : TriceIDLookUp) :
    ∀ (fuel id j₀ : Nat), j₀ < fuel → isKey ilu (id + j₀) = false →
    (∀ j, j < j₀ → isKey ilu (id + j) = true) →
    upwardSearch ilu id fuel = id + j₀ := by
  intro fuel
  induction fuel with
  | zero =>
    intro id j₀ h _ _
    exact absurd h (Nat.not_lt_zero j₀)
  | succ n ih =>
    intro id j₀ hj₀ hfree hmin
    by_cases hk : isKey ilu id = true
    · have hne : j₀ ≠ 0 := by
        intro h0
        subst h0
        rw [Nat.add_zero, hk] at hfree
        exact Bool.noConfusion hfree
      obtain ⟨j₁, rfl⟩ : ∃ j₁, j₀ = j₁ + 1 := ⟨j₀ - 1, by omega⟩
      have hlt : j₁ < n := by omega
      have hfree' : isKey ilu (id + 1 + j₁) = false := by
        have e : id + 1 + j₁ = id + (j₁ + 1) := by omega
        rw [e]
        exact hfree
      have hmin' : ∀ j, j < j₁ → isKey ilu (id + 1 + j) = true := by
        intro j hj
        have e : id + 1 + j = id + (j + 1) := by omega
        rw [e]
        exact hmin (j + 1) (by omega)
      have step : upwardSearch ilu id (n + 1) = upwardSearch ilu (id + 1) n := by
        simp [upwardSearch, hk]
      rw [step, ih (id + 1) j₁ hlt hfree' hmin']
      omega
    · have hk' : isKey ilu id = false := by
        cases h : isKey ilu id with
        | false => rfl
        | true => exact absurd h hk
      have hz : j₀ = 0 := by
        by_contra h0
        have h1 := hmin 0 (by omega)
        rw [Nat.add_zero, hk'] at h1
        exact Bool.noConfusion h1
      subst hz
      simp [upwardSearch, hk']

/-- `downwardSearch` lands exactly on `id - j₀` where `j₀` is the least
offset whose candidate is free, provided the fuel covers `j₀`. -/
lemma downwardSearch_eq (ilu : TriceIDLookUp) :
    ∀ (fuel id j₀ : Nat), j₀ < fuel → isKey ilu (id - j₀) = false →
    (∀ j, j < j₀ → isKey ilu (id - j) = true) →
    downwardSearch ilu id fuel = id - j₀ := by
  intro fuel
  induction fuel with
  | zero =>
    intro id j₀ h _ _
    exact absurd h (Nat.not_lt_zero j₀)
  | succ n ih =>
    intro id j₀ hj₀ hfree hmin
    by_cases hk : isKey ilu id = true
    · have hne : j₀ ≠ 0 := by
        intro h0
        subst h0
        rw [Nat.sub_zero, hk] at hfree
        exact Bool.noConfusion hfree
      obtain ⟨j₁, rfl⟩ : ∃ j₁, j₀ = j₁ + 1 := ⟨j₀ - 1, by omega⟩
      have hlt : j₁ < n := by omega
      have hfree' : isKey ilu (id - 1 - j₁) = false := by
        have e : id - 1 - j₁ = id - (j₁ + 1) := by omega
        rw [e]
        exact hfree
      have hmin' : ∀ j, j < j₁ → isKey ilu (id - 1 - j) = true := by
        intro j hj
        have e : id - 1 - j = id - (j + 1) := by omega
        rw [e]
        exact hmin (j + 1) (by omega)
      have step : downwardSearch ilu id (n + 1) = downwardSearch ilu (id - 1) n := by
        simp [downwardSearch, hk]
      rw [step, ih (id - 1) j₁ hlt hfree' hmin']
      omega
    · have hk' : isKey ilu id = false := by
        cases h : isKey ilu id with
        | false => rfl
        | true => exact absurd h hk
      have hz : j₀ = 0 := by
        by_contra h0
        have h1 := hmin 0 (by omega)
        rw [Nat.sub_zero, hk'] at h1
        exact Bool.noConfusion h1
      subst hz
      simp [downwardSearch, hk']

/-- Full characterisation of `newUpwardID` under the free-space
precondition: it returns the least free ID of `[min, max]`. -/
lemma newUpwardID_spec (ilu : TriceIDLookUp) (min max : Nat)
    (hlen : ilu.length < max + 1 - min) :
    ∃ r, newUpwardID ilu min max = some r ∧ isKey ilu r = false ∧
      min ≤ r ∧ r ≤ max ∧ ∀ k, min ≤ k → k < r → isKey ilu k = true := by
  have hmm : min ≤ max := by omega
  by_cases hnil : ilu.length = 0
  · have hilu : ilu = [] := List.length_eq_zero.mp hnil
    subst hilu
    have hcond : ¬ (max + 1 - min ≤ ([] : TriceIDLookUp).length) := by
      simp
      omega
    refine ⟨min, ?_, rfl, le_refl min, hmm, ?_⟩
    · simp [newUpwardID, hcond]
      omega
    · intro k hk hk'
      exact absurd hk' (by omega)
  · have hcond : ¬ (max + 1 - min ≤ ilu.length) := by omega
    have hex : ∃ j, j < (max + 1 - min) ∧ isKey ilu (min + j) = false := by
      apply exists_free ilu (max + 1 - min) hlen
      intro i hi j hj hij
      omega
    have hexE : ∃ j, isKey ilu (min + j) = false := ⟨hex.choose, hex.choose_spec.2⟩
    classical
    set j₀ := Nat.find hexE with hj₀def
    have hfree : isKey ilu (min + j₀) = false := Nat.find_spec hexE
    have hmin' : ∀ j, j < j₀ → isKey ilu (min + j) = true := by
      intro j hj
      have h1 := Nat.find_min hexE hj
      cases h : isKey ilu (min + j) with
      | false => exact absurd h h1
      | true => rfl
    have hj₀lt : j₀ < max + 1 - min := by
      have h2 := Nat.find_min' hexE hex.choose_spec.2
      have h3 := hex.choose_spec.1
      omega
    have heq : upwardSearch ilu min (max + 1 - min) = min + j₀ :=
      upwardSearch_eq ilu (max + 1 - min) min j₀ hj₀lt hfree hmin'
    refine ⟨min + j₀, ?_, hfree, Nat.le_add_right min j₀, by omega, ?_⟩
    · show newUpwardID ilu min max = some (min + j₀)
      simp only [newUpwardID]
      rw [if_neg hcond, if_neg hnil, heq]
    · intro k hk hk'
      have h4 := hmin' (k - min) (by omega)
      have e : min + (k - min) = k := by omega
      rw [e] at h4
      exact h4

/-- Full characterisation of `newDownwardID` under the free-space
precondition: it returns the greatest free ID of `[min, max]`. -/
lemma newDownwardID_spec (ilu : TriceIDLookUp) (min max : Nat)
    (hlen : ilu.length < max + 1 - min) :
    ∃ r, newDownwardID ilu min max = some r ∧ isKey ilu r = false ∧
      min ≤ r ∧ r ≤ max ∧ ∀ k, k ≤ max → r < k → isKey ilu k = true := by
  have hmm : min ≤ max := by omega
  by_cases hnil : ilu.length = 0
  · have hilu : ilu = [] := List.length_eq_zero.mp hnil
    subst hilu
    have hcond : ¬ (max + 1 - min ≤ ([] : TriceIDLookUp).length) := by
      simp
      omega
    refine ⟨max, ?_, rfl, hmm, le_refl max, ?_⟩
    · simp [newDownwardID, hcond]
      omega
    · intro k hk hk'
      exact absurd hk (by omega)
  · have hcond : ¬ (max + 1 - min ≤ ilu.length) := by omega
    have hex : ∃ j, j < (max + 1 - min) ∧ isKey ilu (max - j) = false := by
      apply exists_free ilu (max + 1 - min) hlen
      intro i hi j hj hij
      rw [List.mem_range] at hi hj
      omega
    have hexE : ∃ j, isKey ilu (max - j) = false := ⟨hex.choose, hex.choose_spec.2⟩
    classical
    set j₀ := Nat.find hexE with hj₀def
    have hfree : isKey ilu (max - j₀) = false := Nat.find_spec hexE
    have hmin' : ∀ j, j < j₀ → isKey ilu (max - j) = true := by
      intro j hj
      have h1 := Nat.find_min hexE hj
      cases h : isKey ilu (max - j) with
      | false => exact absurd h h1
      | true => rfl
    have hj₀lt : j₀ < max + 1 - min := by
      have h2 := Nat.find_min' hexE hex.choose_spec.2
      have h3 := hex.choose_spec.1
      omega
    have heq : downwardSearch ilu max (max + 1 - min) = max - j₀ :=
      downwardSearch_eq ilu (max + 1 - min) max j₀ hj₀lt hfree hmin'
    refine ⟨max - j₀, ?_, hfree, by omega, Nat.sub_le max j₀, ?_⟩
    · show newDownwardID ilu min max = some (max - j₀)
      simp only [newDownwardID]
      rw [if_neg hcond, if_neg hnil, heq]
    · intro k hk hk'
      have h4 := hmin' (max - k) (by omega)
      have e : max - (max - k) = k := by omega
      rw [e] at h4
      exact h4

/-- Soundness of the random redraw loop: any returned ID is free and of
the form `min + d % interval`. -/
lemma randFind_sound (ilu : TriceIDLookUp) (min interval : Nat) (draws : Nat → Nat) :
    ∀ (fuel i : Nat) (id : Nat), randFind ilu min interval draws i fuel = some id →
      isKey ilu id = false ∧ ∃ d, id = min + d % interval := by
  intro fuel
  induction fuel with
  | zero => intro i id h; exact Option.noConfusion h
  | succ n ih =>
    intro i id h
    by_cases hk : isKey ilu (min + draws i % interval) = true
    · simp only [randFind, hk, if_pos] at h
      exact ih (i + 1) id h
    · have hk' : isKey ilu (min + draws i % interval) = false := by
        cases hh : isKey ilu (min + draws i % interval) with
        | false => rfl
        | true => exact absurd hh hk
      simp only [randFind, hk', Bool.false_eq_true, if_neg, not_false_iff] at h
      cases h
      exact ⟨hk', draws i, rfl⟩

end AllocatorLemmas

lemma newID_random_eq (ilu : TriceIDLookUp) (min max : Nat) (draws : Nat → Nat)
    (fuel : Nat) :
    newID ilu min max ("random") draws fuel = newRandomID ilu min max draws fuel := rfl

lemma newID_upward_eq (ilu : TriceIDLookUp) (min max : Nat) (draws : Nat → Nat)
    (fuel : Nat) :
    newID ilu min max ("upward") draws fuel = (newUpwardID ilu min max, false) := rfl

lemma newID_downward_eq (ilu : TriceIDLookUp) (min max : Nat) (draws : Nat → Nat)
    (fuel : Nat) :
    newID ilu min max ("downward") draws fuel = (newDownwardID ilu min max, false) := rfl

/-- C1: Allocator freshness.  For every catalog `C`, bounds `m ≤ M` and
strategy `s ∈ {random, upward, downward}`, if `|C| < M − m + 1` then any
ID delivered by `newID` is not a key of `C` and lies in `[m, M]`; for
the deterministic strategies upward and downward an ID is always
delivered (the random strategy terminates only with probability 1, so
its delivery is stated conditionally on the redraw loop returning). -/
theorem newID_freshness (ilu : TriceIDLookUp) (min max : Nat) (s : String)
    (draws : Nat → Nat) (fuel : Nat)
    (hmm : min ≤ max) (hlen : ilu.length < max + 1 - min)
    (hs : s = ("random") ∨ s = ("upward") ∨ s = ("downward")) :
    (∀ id w, newID ilu min max s draws fuel = (some id, w) →
      isKey ilu id = false ∧ min ≤ id ∧ id ≤ max) ∧
    (s = ("upward") ∨ s = ("downward") →
      ∃ id w, newID ilu min max s draws fuel = (some id, w)) := by
  have hcond : ¬ (max + 1 - min ≤ ilu.length) := by omega
  have hpos : 0 < max + 1 - min := by omega
  rcases hs with rfl | rfl | rfl
  · constructor
    · intro id w h
      rw [newID_random_eq] at h
      simp only [newRandomID] at h
      rw [if_neg hcond] at h
      by_cases hnil : ilu.length = 0
      · rw [if_pos hnil] at h
        rw [Prod.mk.injEq, Option.some.injEq] at h
        obtain ⟨rfl, rfl⟩ := h
        have hilu : ilu = [] := List.length_eq_zero.mp hnil
        subst hilu
        refine ⟨rfl, Nat.le_add_right min _, ?_⟩
        have hm := Nat.mod_lt (draws 0) hpos
        omega
      · rw [if_neg hnil] at h
        rw [Prod.mk.injEq] at h
        obtain ⟨h1, rfl⟩ := h
        obtain ⟨hfree, d, rfl⟩ :=
          randFind_sound ilu min (max + 1 - min) draws fuel 0 id h1
        refine ⟨hfree, Nat.le_add_right min _, ?_⟩
        have hm := Nat.mod_lt d hpos
        omega
    · intro hud
      rcases hud with h | h <;> exact absurd h (by decide)
  · constructor
    · intro id w h
      obtain ⟨r, hr1, hr2, hr3, hr4, hr5⟩ := newUpwardID_spec ilu min max hlen
      rw [newID_upward_eq, hr1] at h
      simp only [Prod.mk.injEq, Option.some.injEq] at h
      obtain ⟨rfl, rfl⟩ := h
      exact ⟨hr2, hr3, hr4⟩
    · intro _
      obtain ⟨r, hr1, _, _, _, _⟩ := newUpwardID_spec ilu min max hlen
      exact ⟨r, false, by rw [newID_upward_eq, hr1]⟩
  · constructor
    · intro id w h
      obtain ⟨r, hr1, hr2, hr3, hr4, hr5⟩ := newDownwardID_spec ilu min max hlen
      rw [newID_downward_eq, hr1] at h
      simp only [Prod.mk.injEq, Option.some.injEq] at h
      obtain ⟨rfl, rfl⟩ := h
      exact ⟨hr2, hr3, hr4⟩
    · intro _
      obtain ⟨r, hr1, _, _, _, _⟩ := newDownwardID_spec ilu min max hlen
      exact ⟨r, false, by rw [newID_downward_eq, hr1]⟩

/-- Witness for `newID_freshness`: with catalog `{100 ↦ (T, x)}` and
range `[100, 200]`, the theorem's hypotheses hold and its conclusion is
obtained for the upward strategy. -/
theorem newID_freshness_witness :
    (∀ id w, newID [(100, ⟨("T"), ("x")⟩)] 100 200 ("upward") (fun _ => 0) 0 = (some id, w) →
      isKey [(100, ⟨("T"), ("x")⟩)] id = false ∧ 100 ≤ id ∧ id ≤ 200) ∧
    (("upward" : String) = ("upward") ∨ ("upward" : String) = ("downward") →
      ∃ id w, newID [(100, ⟨("T"), ("x")⟩)] 100 200 ("upward") (fun _ => 0) 0 = (some id, w)) :=
  newID_freshness [(100, ⟨("T"), ("x")⟩)] 100 200 ("upward") (fun _ => 0) 0
    (by decide) (by decide) (Or.inr (Or.inl rfl))

/-- C2: Upward minimality.  Under the free-space precondition,
`newUpwardID` returns exactly the smallest `k ∈ [min, max]` that is not
a key of the catalog. -/
theorem newUpwardID_minimal (ilu : TriceIDLookUp) (min max : Nat)
    (hmm : min ≤ max) (hlen : ilu.length < max + 1 - min) :
    ∃ r, newUpwardID ilu min max = some r ∧ isKey ilu r = false ∧
      min ≤ r ∧ r ≤ max ∧ ∀ k, min ≤ k → k < r → isKey ilu k = true :=
  newUpwardID_spec ilu min max hlen

/-- Witness for `newUpwardID_minimal`: the spec's dense-upward scenario
`C = {100, 101, 103}`, range `[100, 200]` (result is `102`). -/
theorem newUpwardID_minimal_witness :
    ∃ r, newUpwardID [(100, ⟨("T"), ("x")⟩), (101, ⟨("T"), ("y")⟩), (103, ⟨("T"), ("z")⟩)] 100 200 = some r ∧
      isKey [(100, ⟨("T"), ("x")⟩), (101, ⟨("T"), ("y")⟩), (103, ⟨("T"), ("z")⟩)] r = false ∧
      100 ≤ r ∧ r ≤ 200 ∧
      ∀ k, 100 ≤ k → k < r →
        isKey [(100, ⟨("T"), ("x")⟩), (101, ⟨("T"), ("y")⟩), (103, ⟨("T"), ("z")⟩)] k = true :=
  newUpwardID_minimal [(100, ⟨("T"), ("x")⟩), (101, ⟨("T"), ("y")⟩), (103, ⟨("T"), ("z")⟩)]
    100 200 (by decide) (by decide)

/-- C3: Downward maximality.  Under the free-space precondition,
`newDownwardID` returns exactly the largest `k ∈ [min, max]` that is not
a key of the catalog. -/
theorem newDownwardID_maximal (ilu : TriceIDLookUp) (min max : Nat)
    (hmm : min ≤ max) (hlen : ilu.length < max + 1 - min) :
    ∃ r, newDownwardID ilu min max = some r ∧ isKey ilu r = false ∧
      min ≤ r ∧ r ≤ max ∧ ∀ k, k ≤ max → r < k → isKey ilu k = true :=
  newDownwardID_spec ilu min max hlen

/-- Witness for `newDownwardID_maximal`: the spec's downward-with-gap
scenario `C = {100, 101, 103}`, range `[100, 200]` (result is `200`). -/
theorem newDownwardID_maximal_witness :
    ∃ r, newDownwardID [(100, ⟨("T"), ("x")⟩), (101, ⟨("T"), ("y")⟩), (103, ⟨("T"), ("z")⟩)] 100 200 = some r ∧
      isKey [(100, ⟨("T"), ("x")⟩), (101, ⟨("T"), ("y")⟩), (103, ⟨("T"), ("z")⟩)] r = false ∧
      100 ≤ r ∧ r ≤ 200 ∧
      ∀ k, k ≤ 200 → r < k →
        isKey [(100, ⟨("T"), ("x")⟩), (101, ⟨("T"), ("y")⟩), (103, ⟨("T"), ("z")⟩)] k = true :=
  newDownwardID_maximal [(100, ⟨("T"), ("x")⟩), (101, ⟨("T"), ("y")⟩), (103, ⟨("T"), ("z")⟩)]
    100 200 (by decide) (by decide)

/-- Catalog with keys `1..15` used to refute claim C9: with range
`[1, 16]` the fill is `15/16 > 87.5%`. -/
def iluC9 : TriceIDLookUp := (List.range 15).map (fun i => (i + 1, ⟨("T"), ("x")⟩))

/-- C9 counterexample: the claim says every strategy warns when
`|C| > 0.875 ⬝ (M − m + 1)`; here `|C| = 15 > 14 = 0.875 ⬝ 16`, the
catalog is not full, yet the upward strategy emits no warning (the
check exists only in `newRandomID`). -/
theorem newID_upward_no_warning_cex :
    8 * iluC9.length > 7 * (16 + 1 - 1) ∧
    iluC9.length < 16 + 1 - 1 ∧
    (newID iluC9 1 16 ("upward") (fun _ => 0) 0).2 = false := by decide

/-- C9 amended: only the random strategy performs the low-free-IDs
check; it warns exactly when `freeIDs < interval / 8` (Go:
`interval >> 3`), i.e. when `|C| > interval − ⌊interval/8⌋`; the upward
and downward strategies never warn. -/
theorem newID_warning_only_random (ilu : TriceIDLookUp) (min max : Nat)
    (draws : Nat → Nat) (fuel : Nat)
    (hlen : ilu.length < max + 1 - min) :
    (newID ilu min max ("random") draws fuel).2
      = decide (max + 1 - min - ilu.length < (max + 1 - min) / 8) ∧
    (newID ilu min max ("upward") draws fuel).2 = false ∧
    (newID ilu min max ("downward") draws fuel).2 = false := by
  have hcond : ¬ (max + 1 - min ≤ ilu.length) := by omega
  refine ⟨?_, rfl, rfl⟩
  rw [newID_random_eq]
  have hsh : (max + 1 - min) >>> 3 = (max + 1 - min) / 8 := by
    rw [Nat.shiftRight_eq_div_pow]
  simp only [newRandomID]
  rw [if_neg hcond, apply_ite Prod.snd]
  simp [hsh]

/-- Witness for `newID_warning_only_random`: catalog `{1 ↦ (T, x)}` in
range `[1, 8]`; the warning flag of each strategy is evaluated. -/
def iluC9W : TriceIDLookUp := [(1, ⟨("T"), ("x")⟩)]

theorem newID_warning_only_random_witness :
    (newID iluC9W 1 8 ("random") (fun _ => 0) 1).2
      = decide (8 + 1 - 1 - iluC9W.length < (8 + 1 - 1) / 8) ∧
    (newID iluC9W 1 8 ("upward") (fun _ => 0) 1).2 = false ∧
    (newID iluC9W 1 8 ("downward") (fun _ => 0) 1).2 = false :=
  newID_warning_only_random iluC9W 1 8 (fun _ => 0) 1 (by decide)

/-- strings.ContainsAny: true iff any character of `chars` occurs in `s`. -/
def goContainsAny (s chars : String) : Bool :=
  s.data.any (fun c => chars.data.contains c)

/-- Split of a character list at every occurrence of `sep`; Go's
`strings.Split` with a one-character separator produces `count + 1`
pieces. -/
def splitOnChar (sep : Char) : List Char → List (List Char)
  | [] => [[]]
  | c :: cs =>
    let r := splitOnChar sep cs
    if c == sep then [] :: r
    else
      match r with
      | [] => [[c]]
      | h :: t => (c :: h) :: t

/-- Go `strings.Split(s, "_")`. -/
def goSplit (s : String) : List String :=
  (splitOnChar '_' s.data).map (fun l => l.asString)

/-- One pass of `AddFmtCount` over a single catalog entry; `fsc` is the
external `formatSpecifierCount`.  Branches that only report to the
progress writer (invalid count; the fixed-count S/N/B families,
including their alias-prefix exemption; the F family; malformed or
already-suffixed type names) leave the entry unchanged.  The Go rewrite
`fmt.Sprintf(x.Type+"_%d", n)` coincides with string concatenation
whenever the type tag contains no `%` verb, which trice type tags never
do. -/
def addFmtCountEntry (fsc : String → Int) (x : TriceFmt) : TriceFmt :=
  let n := fsc x.Strg
  if ¬ (0 ≤ n ∧ n ≤ 12) then x
  else if goContainsAny x.«Type» ("S") || goContainsAny x.«Type» ("N")
      || goContainsAny x.«Type» ("B") then x
  else if goContainsAny x.«Type» ("F") then x
  else
    let s := goSplit x.«Type»
    if s.length > 2 then x
    else if s.length = 2 then x
    else if n = 0 then x
    else { x with «Type» := x.«Type» ++ "_" ++ toString n }

/-- Go `AddFmtCount`: iterates the catalog rewriting entry values in
place (`ilu[i] = x`); the key set never changes, so the pass is a value
map over the entries. -/
def AddFmtCount (fsc : String → Int) (ilu : TriceIDLookUp) : TriceIDLookUp :=
  ilu.map (fun p => (p.1, addFmtCountEntry fsc p.2))

section ReconcilerLemmas

lemma splitOnChar_length_pos (sep : Char) :
    ∀ l : List Char, 1 ≤ (splitOnChar sep l).length := by
  intro l
  induction l with
  | nil => simp [splitOnChar]
  | cons c cs ih =>
    simp only [splitOnChar]
    by_cases hc : (c == sep) = true
    · simp [hc]
    · simp only [hc]
      cases hr : splitOnChar sep cs with
      | nil => simp
      | cons h t => simp

lemma two_le_splitOnChar_length (sep : Char) :
    ∀ l : List Char, sep ∈ l → 2 ≤ (splitOnChar sep l).length := by
  intro l
  induction l with
  | nil => intro h; exact absurd h (List.not_mem_nil sep)
  | cons c cs ih =>
    intro hmem
    simp only [splitOnChar]
    by_cases hc : (c == sep) = true
    · simp only [hc, if_pos]
      have h1 := splitOnChar_length_pos sep cs
      simp only [List.length_cons]
      omega
    · have hcs : sep ∈ cs := by
        rcases List.mem_cons.mp hmem with h | h
        · exact absurd (beq_iff_eq.mpr h.symm) hc
        · exact h
      have h2 := ih hcs
      simp only [hc]
      cases hr : splitOnChar sep cs with
      | nil =>
        rw [hr] at h2
        simp at h2
      | cons h t =>
        rw [hr] at h2
        simp only [List.length_cons] at h2 ⊢
        simp
        omega

lemma splitOnChar_not_mem (sep : Char) :
    ∀ l : List Char, sep ∉ l → splitOnChar sep l = [l] := by
  intro l
  induction l with
  | nil => intro _; rfl
  | cons c cs ih =>
    intro hmem
    have hc : (c == sep) = false := by
      cases h : c == sep with
      | false => rfl
      | true => exact absurd (List.mem_cons_self c cs) (beq_iff_eq.mp h ▸ hmem)
    have hcs : sep ∉ cs := fun h => hmem (List.mem_cons_of_mem c h)
    simp [splitOnChar, hc, ih hcs]

lemma goSplit_length_one (s : String) (h : '_' ∉ s.data) :
    (goSplit s).length = 1 := by
  unfold goSplit
  rw [splitOnChar_not_mem '_' s.data h]
  rfl

lemma underscore_mem_append (a d : String) :
    '_' ∈ (a ++ "_" ++ d).data := by
  rw [String.data_append, String.data_append]
  exact List.mem_append.mpr (Or.inl (List.mem_append.mpr (Or.inr (by decide))))

lemma goSplit_length_two_le (a d : String) :
    2 ≤ (goSplit (a ++ "_" ++ d)).length := by
  unfold goSplit
  rw [List.length_map]
  exact two_le_splitOnChar_length '_' _ (underscore_mem_append a d)

/-- Every branch of `addFmtCountEntry` either keeps the entry or appends
the `_n` suffix to its type. -/
lemma addFmtCountEntry_cases (fsc : String → Int) (x : TriceFmt) :
    addFmtCountEntry fsc x = x ∨
      addFmtCountEntry fsc x =
        { x with «Type» := x.«Type» ++ "_" ++ toString (fsc x.Strg) } := by
  simp only [addFmtCountEntry]
  repeat' split
  all_goals first | exact Or.inl rfl | exact Or.inr rfl

/-- An entry whose type splits into two or more pieces is never
rewritten. -/
lemma addFmtCountEntry_of_split_ge_two (fsc : String → Int) (z : TriceFmt)
    (h : 2 ≤ (goSplit z.«Type»).length) : addFmtCountEntry fsc z = z := by
  simp only [addFmtCountEntry]
  repeat' split
  all_goals first | rfl | omega

/-- Per-entry idempotence: the suffix added by a first pass makes the
type split into two pieces, which a second pass leaves alone. -/
lemma addFmtCountEntry_idem (fsc : String → Int) (x : TriceFmt) :
    addFmtCountEntry fsc (addFmtCountEntry fsc x) = addFmtCountEntry fsc x := by
  rcases addFmtCountEntry_cases fsc x with h | h
  · rw [h]
    exact h
  · rw [h]
    exact addFmtCountEntry_of_split_ge_two fsc _ (goSplit_length_two_le _ _)

end ReconcilerLemmas

/-- C4: Reconciler fixpoint.  For a catalog whose entries all have
specifier counts in `[0, 12]`, applying `AddFmtCount` twice yields the
same catalog as applying it once (the proof in fact never needs the
count bound: every branch other than the suffix rewrite is the
identity, and a rewritten type contains `_` and is skipped by the
second pass). -/
theorem addFmtCount_idempotent (fsc : String → Int) (ilu : TriceIDLookUp)
    (hcnt : ∀ p ∈ ilu, 0 ≤ fsc p.2.Strg ∧ fsc p.2.Strg ≤ 12) :
    AddFmtCount fsc (AddFmtCount fsc ilu) = AddFmtCount fsc ilu := by
  unfold AddFmtCount
  rw [List.map_map]
  have hg : ((fun p : TriceID × TriceFmt => (p.1, addFmtCountEntry fsc p.2)) ∘
      (fun p : TriceID × TriceFmt => (p.1, addFmtCountEntry fsc p.2)))
      = fun p : TriceID × TriceFmt => (p.1, addFmtCountEntry fsc p.2) := by
    funext p
    simp [Function.comp, addFmtCountEntry_idem]
  rw [hg]

/-- Witness for `addFmtCount_idempotent`: the spec's reconciler-rewrite
entry, with the specifier counter returning 2. -/
theorem addFmtCount_idempotent_witness :
    AddFmtCount (fun _ => (2 : Int))
        (AddFmtCount (fun _ => (2 : Int)) [(10001, ⟨("TRICE16"), ("hi %03u, %5x")⟩)])
      = AddFmtCount (fun _ => (2 : Int)) [(10001, ⟨("TRICE16"), ("hi %03u, %5x")⟩)] :=
  addFmtCount_idempotent (fun _ => (2 : Int)) [(10001, ⟨("TRICE16"), ("hi %03u, %5x")⟩)]
    (by decide)

/-- C5: Reconciler rewrite.  An entry whose type tag contains no
underscore and none of the letters S, N, B, F is left unchanged when
its specifier count is 0, and has `_n` appended to its type (key and
format string unchanged) when the count `n` is in `[1, 12]`. -/
theorem addFmtCount_rewrite (fsc : String → Int) (ilu : TriceIDLookUp)
    (i : TriceID) (x : TriceFmt) (hmem : (i, x) ∈ ilu)
    (hund : '_' ∉ x.«Type».data)
    (hS : goContainsAny x.«Type» ("S") = false)
    (hN : goContainsAny x.«Type» ("N") = false)
    (hB : goContainsAny x.«Type» ("B") = false)
    (hF : goContainsAny x.«Type» ("F") = false) :
    (fsc x.Strg = 0 → (i, x) ∈ AddFmtCount fsc ilu) ∧
    (1 ≤ fsc x.Strg → fsc x.Strg ≤ 12 →
      (i, { x with «Type» := x.«Type» ++ "_" ++ toString (fsc x.Strg) })
        ∈ AddFmtCount fsc ilu) := by
  have hlen1 : (goSplit x.«Type»).length = 1 := goSplit_length_one x.«Type» hund
  constructor
  · intro h0
    have he : addFmtCountEntry fsc x = x := by
      simp [addFmtCountEntry, h0, hS, hN, hB, hF, hlen1]
    exact List.mem_map.mpr ⟨(i, x), hmem, by rw [he]⟩
  · intro hge hle
    have hne : ¬ (fsc x.Strg = 0) := by omega
    have h1 : ¬ ¬ (0 ≤ fsc x.Strg ∧ fsc x.Strg ≤ 12) :=
      not_not_intro ⟨by omega, hle⟩
    have he : addFmtCountEntry fsc x
        = { x with «Type» := x.«Type» ++ "_" ++ toString (fsc x.Strg) } := by
      simp only [addFmtCountEntry]
      rw [if_neg h1]
      rw [if_neg (by simp [hS, hN, hB])]
      rw [if_neg (by simp [hF])]
      rw [if_neg (show ¬ ((goSplit x.«Type»).length > 2) from by omega)]
      rw [if_neg (show ¬ ((goSplit x.«Type»).length = 2) from by omega)]
      rw [if_neg hne]
    exact List.mem_map.mpr ⟨(i, x), hmem, by rw [he]⟩

/-- Witness for `addFmtCount_rewrite`: the spec's concrete scenario,
entry `{10001 ↦ (TRICE16, "hi %03u, %5x")}` with count 2 becomes
`TRICE16_2`. -/
theorem addFmtCount_rewrite_witness :
    ((10001 : TriceID), (⟨("TRICE16_2"), ("hi %03u, %5x")⟩ : TriceFmt)) ∈
      AddFmtCount (fun _ => (2 : Int)) [(10001, ⟨("TRICE16"), ("hi %03u, %5x")⟩)] :=
  (addFmtCount_rewrite (fun _ => (2 : Int)) [(10001, ⟨("TRICE16"), ("hi %03u, %5x")⟩)]
    10001 ⟨("TRICE16"), ("hi %03u, %5x")⟩ (List.mem_singleton.mpr rfl)
    (by decide) (by decide) (by decide) (by decide) (by decide)).2
    (by norm_num) (by norm_num)

/-- A file of the modelled filesystem: abstract content and mtime. -/
structure FileData where
  content : Nat
  mtime : Nat
deriving DecidableEq, Repr

/-- The afero filesystem handle, modelled as an association list from
paths to files (directories are implicit). -/
abbrev FS := List (String × FileData)

/-- fSys.Stat: `some` the file's info, `none` on the not-found error. -/
def statFS (fs : FS) (p : String) : Option FileData :=
  (fs.find? (fun q => q.1 == p)).map (fun q => q.2)

/-- fSys.Remove (the call sites in `triceIDCleaning` ignore its result). -/
def removeFS (fs : FS) (p : String) : FS :=
  fs.filter (fun q => q.1 != p)

/-- Creation or overwrite of a whole file. -/
def writeFS (fs : FS) (p : String) (f : FileData) : FS :=
  (p, f) :: removeFS fs p

/-- The `fileExists` helper of the trice sources. -/
def fileExists (fs : FS) (p : String) : Bool :=
  (statFS fs p).isSome

/-- Modelled from the spec: `CopyFileWithMTime(fSys, dst, src)` is the
file-copy-with-mtime utility (component G); it copies the source's
content to `dst` preserving the source's modification time, and errors
(code 1) when the source is missing. -/
def CopyFileWithMTime (fs : FS) (dst src : String) : FS × Option Nat :=
  match statFS fs src with
  | none => (fs, some 1)
  | some f => (writeFS fs dst f, none)

/-- Modelled from the spec: the run-state error accumulator `p.join` of
`idData`; per-file errors are joined into a per-run list, the empty
list standing for Go's `nil`. -/
def joinErr (acc : List Nat) (e : Option Nat) : List Nat :=
  match e with
  | none => acc
  | some x => acc ++ [x]

/-- The globals read by `triceIDCleaning`: the `TriceCacheEnabled` flag,
`UserHomeDir`, and the canonicalisation applied to the source path
(`filepath.Abs` followed by the drive-colon removal), modelled as a
total function. -/
structure CleanCfg where
  TriceCacheEnabled : Bool
  UserHomeDir : String
  canon : String → String

/-- filepath.Join for the paths built by the cache code. -/
def joinP (a b : String) : String := a ++ "/" ++ b

def cleanedCacheFolderName : String := "cleaned"

def insertedCacheFolderName : String := "inserted"

/-- `filepath.Join(UserHomeDir, ".trice/cache")`. -/
def cachePath (cfg : CleanCfg) : String := joinP cfg.UserHomeDir (".trice/cache")

/-- The cleaned cache twin of a source path. -/
def cleanedTwinPath (cfg : CleanCfg) (path : String) : String :=
  joinP (joinP (cachePath cfg) cleanedCacheFolderName) (cfg.canon path)

/-- The inserted cache twin of a source path. -/
def insertedTwinPath (cfg : CleanCfg) (path : String) : String :=
  joinP (joinP (cachePath cfg) insertedCacheFolderName) (cfg.canon path)

/-- Result of one `triceIDCleaning` call: the filesystem, the in-memory
catalog, the error accumulator (the function's return value is exactly
the accumulator), and whether the transform was invoked. -/
structure CleanOutcome where
  fs : FS
  cat : TriceIDLookUp
  errAcc : List Nat
  didTransform : Bool
deriving DecidableEq, Repr

/-- The tail of `triceIDCleaning` from the `clean:` label: invoke the
transform (`process` stands for the external
`processTriceIDCleaning`), join its error, and — when the cache is live
and the accumulated error is nil — copy the result into the cleaned
cache twin.  `MkdirAll` cannot fail in this model because directories
are not represented, so its error join is the identity; the
cache-folder-missing warning is print-only and elided. -/
def cleanFrom (cfg : CleanCfg)
    (process : FS → TriceIDLookUp → String → FS × TriceIDLookUp × Option Nat)
    (fs : FS) (cat : TriceIDLookUp) (errAcc : List Nat) (path : String)
    (cacheExists : Bool) (cleanedCachePath : String) : CleanOutcome :=
  let r := process fs cat path
  let acc1 := joinErr errAcc r.2.2
  if cfg.TriceCacheEnabled && cacheExists && acc1.isEmpty then
    let c := CopyFileWithMTime r.1 cleanedCachePath path
    ⟨c.1, r.2.1, joinErr acc1 c.2, true⟩
  else ⟨r.1, r.2.1, acc1, true⟩

/-- Go `triceIDCleaning`: early return of the accumulated error when it
is already non-nil; otherwise the clean-mode decision table of §4.1
over the two cache twins, with `goto clean` re-expressed as the shared
tail `cleanFrom`.  `fileInfoMTime` is `fileInfo.ModTime()` as passed by
the walker; `msg.Tell`/`msg.OnErrFv` progress output carries no state
and is elided. -/
def triceIDCleaning (cfg : CleanCfg)
    (process : FS → TriceIDLookUp → String → FS × TriceIDLookUp × Option Nat)
    (fs : FS) (cat : TriceIDLookUp) (errAcc : List Nat)
    (path : String) (fileInfoMTime : Nat) : CleanOutcome :=
  if ¬ errAcc.isEmpty then ⟨fs, cat, errAcc, false⟩
  else if cfg.TriceCacheEnabled then
    if (statFS fs (cachePath cfg)).isSome then
      match statFS fs (cleanedTwinPath cfg path) with
      | none => cleanFrom cfg process fs cat errAcc path true (cleanedTwinPath cfg path)
      | some cCache =>
        if fileInfoMTime = cCache.mtime then ⟨fs, cat, errAcc, false⟩
        else
          match statFS fs (insertedTwinPath cfg path) with
          | none => cleanFrom cfg process fs cat errAcc path true (cleanedTwinPath cfg path)
          | some iCache =>
            if fileInfoMTime = iCache.mtime ∧ fileExists fs (cleanedTwinPath cfg path) = true then
              let c := CopyFileWithMTime fs path (cleanedTwinPath cfg path)
              ⟨c.1, cat, joinErr errAcc c.2, false⟩
            else
              let fs1 := removeFS fs (insertedTwinPath cfg path)
              let fs2 := removeFS fs1 (cleanedTwinPath cfg path)
              cleanFrom cfg process fs2 cat errAcc path true (cleanedTwinPath cfg path)
    else cleanFrom cfg process fs cat errAcc path false (cleanedTwinPath cfg path)
  else cleanFrom cfg process fs cat errAcc path false (cleanedTwinPath cfg path)

/-- One run over a list of (path, mtime) source files sharing a single
run state, as the ant walker drives `triceIDCleaning`; the final
component lists each file's transform flag in file order. -/
def cleanRun (cfg : CleanCfg)
    (process : FS → TriceIDLookUp → String → FS × TriceIDLookUp × Option Nat) :
    List (String × Nat) → FS → TriceIDLookUp → List Nat →
      FS × TriceIDLookUp × List Nat × List Bool
  | [], fs, cat, acc => (fs, cat, acc, [])
  | (p, mt) :: rest, fs, cat, acc =>
    let r := triceIDCleaning cfg process fs cat acc p mt
    let s := cleanRun cfg process rest r.fs r.cat r.errAcc
    (s.1, s.2.1, s.2.2.1, r.didTransform :: s.2.2.2)

lemma statFS_writeFS (fs : FS) (p : String) (f : FileData) :
    statFS (writeFS fs p f) p = some f := by
  simp [statFS, writeFS]

/-- C6: Clean no-op.  With the cache enabled, the cache directory
present, and the cleaned twin's mtime equal to the source's, the call
is a no-op: filesystem (hence the source file and both twins), catalog
and error accumulator are returned unchanged and the transform is not
invoked; a run state already holding an error returns the same way even
earlier. -/
theorem triceIDCleaning_noop_when_cleaned_current (cfg : CleanCfg)
    (process : FS → TriceIDLookUp → String → FS × TriceIDLookUp × Option Nat)
    (fs : FS) (cat : TriceIDLookUp) (errAcc : List Nat)
    (path : String) (mt : Nat) (c : FileData)
    (hen : cfg.TriceCacheEnabled = true)
    (hdir : (statFS fs (cachePath cfg)).isSome = true)
    (hc : statFS fs (cleanedTwinPath cfg path) = some c)
    (hmt : mt = c.mtime) :
    triceIDCleaning cfg process fs cat errAcc path mt = ⟨fs, cat, errAcc, false⟩ := by
  unfold triceIDCleaning
  by_cases hacc : errAcc.isEmpty = true
  · rw [if_neg (not_not_intro hacc), if_pos hen, if_pos hdir, hc]
    simp only []
    rw [if_pos hmt]
  · rw [if_pos hacc]

/-- C7: Invalidation then re-cache.  With the cache live, both twins
present, and neither twin's mtime matching the source's, the call
removes the inserted then the cleaned twin, invokes the transform on
the resulting filesystem, and — the transform having succeeded and left
the source present — copies the transformed source into the cleaned
twin preserving its mtime. -/
theorem triceIDCleaning_invalidates_and_recaches (cfg : CleanCfg)
    (process : FS → TriceIDLookUp → String → FS × TriceIDLookUp × Option Nat)
    (fs : FS) (cat : TriceIDLookUp) (path : String) (mt : Nat)
    (c i f2 : FileData) (fs2 : FS) (cat2 : TriceIDLookUp)
    (hen : cfg.TriceCacheEnabled = true)
    (hdir : (statFS fs (cachePath cfg)).isSome = true)
    (hc : statFS fs (cleanedTwinPath cfg path) = some c)
    (hcne : mt ≠ c.mtime)
    (hi : statFS fs (insertedTwinPath cfg path) = some i)
    (hine : mt ≠ i.mtime)
    (hproc : process
        (removeFS (removeFS fs (insertedTwinPath cfg path)) (cleanedTwinPath cfg path))
        cat path = (fs2, cat2, none))
    (hstat2 : statFS fs2 path = some f2) :
    triceIDCleaning cfg process fs cat [] path mt
        = ⟨writeFS fs2 (cleanedTwinPath cfg path) f2, cat2, [], true⟩ ∧
    statFS (triceIDCleaning cfg process fs cat [] path mt).fs
        (cleanedTwinPath cfg path) = some f2 := by
  have hmain : triceIDCleaning cfg process fs cat [] path mt
      = ⟨writeFS fs2 (cleanedTwinPath cfg path) f2, cat2, [], true⟩ := by
    unfold triceIDCleaning
    rw [if_neg (by simp), if_pos hen, if_pos hdir, hc]
    simp only []
    rw [if_neg hcne, hi]
    simp only []
    rw [if_neg (by intro hand; exact hine hand.1)]
    unfold cleanFrom
    rw [hproc]
    simp only [joinErr]
    rw [if_pos (by simp [hen])]
    unfold CopyFileWithMTime
    rw [hstat2]
  refine ⟨hmain, ?_⟩
  rw [hmain]
  exact statFS_writeFS fs2 (cleanedTwinPath cfg path) f2

/-- C10: No cache write on the error path.  When the transform joins an
error into the run state, `triceIDCleaning` does not copy the source
into the cleaned twin: the returned filesystem is exactly the
transform's output and the accumulator carries the error (shown here on
the no-cleaned-twin path, whose only cache effect would be that very
copy). -/
theorem triceIDCleaning_no_cache_write_on_error (cfg : CleanCfg)
    (process : FS → TriceIDLookUp → String → FS × TriceIDLookUp × Option Nat)
    (fs : FS) (cat : TriceIDLookUp) (path : String) (mt : Nat)
    (fs2 : FS) (cat2 : TriceIDLookUp) (e : Nat)
    (hen : cfg.TriceCacheEnabled = true)
    (hdir : (statFS fs (cachePath cfg)).isSome = true)
    (hc : statFS fs (cleanedTwinPath cfg path) = none)
    (hproc : process fs cat path = (fs2, cat2, some e)) :
    triceIDCleaning cfg process fs cat [] path mt = ⟨fs2, cat2, [e], true⟩ := by
  unfold triceIDCleaning
  rw [if_neg (by simp), if_pos hen, if_pos hdir, hc]
  simp only []
  unfold cleanFrom
  rw [hproc]
  simp only [joinErr]
  rw [if_neg (by simp)]
  simp

/-- Run configuration and transform used by the C8 counterexample: the
cache is disabled and every transform fails with error 7. -/
def cfgC8 : CleanCfg := ⟨false, (""), fun p => p⟩

def procC8 : FS → TriceIDLookUp → String → FS × TriceIDLookUp × Option Nat :=
  fun fs cat _ => (fs, cat, some 7)

/-- C8 counterexample: processing two files where the first transform
joins error 7 into the run state.  The claim says the second file's
transform is still attempted; in fact `triceIDCleaning` returns
immediately once the accumulator is non-nil, so the per-file transform
flags are `[true, false]` — the second transform was skipped — while
the error is indeed accumulated. -/
theorem cleanRun_skips_after_error_cex :
    (cleanRun cfgC8 procC8 [(("a"), 0), (("b"), 0)] [] [] []).2.2.2 = [true, false] ∧
    (cleanRun cfgC8 procC8 [(("a"), 0), (("b"), 0)] [] [] []).2.2.1 = [7] := by
  exact ⟨rfl, rfl⟩

/-- C8 amended: per-file transform and filesystem errors are joined
into the run-state accumulator, but once the accumulator is non-nil
every subsequent `triceIDCleaning` call returns the accumulated error
immediately — later files are skipped, not attempted. -/
theorem triceIDCleaning_skips_on_accumulated_error (cfg : CleanCfg)
    (process : FS → TriceIDLookUp → String → FS × TriceIDLookUp × Option Nat)
    (fs : FS) (cat : TriceIDLookUp) (errAcc : List Nat)
    (path : String) (mt : Nat) (h : errAcc ≠ []) :
    triceIDCleaning cfg process fs cat errAcc path mt = ⟨fs, cat, errAcc, false⟩ := by
  unfold triceIDCleaning
  rw [if_pos (by simpa [List.isEmpty_iff] using h)]

/-- Witness for `triceIDCleaning_skips_on_accumulated_error`: a runstate
already holding error 3 is returned untouched, transform skipped. -/
theorem triceIDCleaning_skips_witness :
    triceIDCleaning ⟨true, ("h"), fun p => p⟩ (fun fs cat _ => (fs, cat, none))
        [] [] [3] ("a") 0 = ⟨[], [], [3], false⟩ :=
  triceIDCleaning_skips_on_accumulated_error ⟨true, ("h"), fun p => p⟩
    (fun fs cat _ => (fs, cat, none)) [] [] [3] ("a") 0 (by simp)

/-- Concrete run configuration for the cache witnesses: cache enabled,
home directory `h`, identity canonicalisation. -/
def cfgW : CleanCfg := ⟨true, ("h"), fun p => p⟩

/-- Filesystem for the C6 witness: cache directory present, cleaned
twin of `s` present with the source's mtime 42. -/
def fsC6 : FS := [(("h/.trice/cache"), ⟨0, 0⟩), (("h/.trice/cache/cleaned/s"), ⟨5, 42⟩)]

/-- Witness for `triceIDCleaning_noop_when_cleaned_current`: the spec's
cache-fast-path scenario; the call changes nothing. -/
theorem triceIDCleaning_noop_witness :
    triceIDCleaning cfgW (fun fs cat _ => (fs, cat, none)) fsC6 [] [] ("s") 42
      = ⟨fsC6, [], [], false⟩ :=
  triceIDCleaning_noop_when_cleaned_current cfgW (fun fs cat _ => (fs, cat, none))
    fsC6 [] [] ("s") 42 ⟨5, 42⟩ rfl (by decide) (by decide) rfl

/-- Filesystem for the C7 witness: both twins present with mtimes 1 and
2, the source `s` edited to mtime 3. -/
def fsC7 : FS :=
  [(("h/.trice/cache"), ⟨0, 0⟩), (("h/.trice/cache/cleaned/s"), ⟨5, 1⟩),
   (("h/.trice/cache/inserted/s"), ⟨6, 2⟩), (("s"), ⟨7, 3⟩)]

/-- Transform for the C7 witness: rewrites `s` in place (content 9,
mtime 3) and succeeds. -/
def procC7 : FS → TriceIDLookUp → String → FS × TriceIDLookUp × Option Nat :=
  fun f c _ => (writeFS f ("s") ⟨9, 3⟩, c, none)

/-- `fsC7` with both cache twins removed. -/
def fsC7R : FS :=
  removeFS (removeFS fsC7 (insertedTwinPath cfgW ("s"))) (cleanedTwinPath cfgW ("s"))

/-- Witness for `triceIDCleaning_invalidates_and_recaches`: the spec's
invalidation scenario; both twins are removed, the transform runs, and
the cleaned twin is rewritten with the transformed file's mtime. -/
theorem triceIDCleaning_invalidates_witness :
    triceIDCleaning cfgW procC7 fsC7 [] [] ("s") 3
        = ⟨writeFS (writeFS fsC7R ("s") ⟨9, 3⟩) (cleanedTwinPath cfgW ("s")) ⟨9, 3⟩, [], [], true⟩ ∧
    statFS (triceIDCleaning cfgW procC7 fsC7 [] [] ("s") 3).fs
        (cleanedTwinPath cfgW ("s")) = some ⟨9, 3⟩ :=
  triceIDCleaning_invalidates_and_recaches cfgW procC7 fsC7 [] ("s") 3
    ⟨5, 1⟩ ⟨6, 2⟩ ⟨9, 3⟩ (writeFS fsC7R ("s") ⟨9, 3⟩) []
    rfl (by decide) (by decide) (by decide) (by decide) (by decide)
    rfl (statFS_writeFS fsC7R ("s") ⟨9, 3⟩)

/-- Filesystem for the C10 witness: cache directory present, no twins. -/
def fsC10 : FS := [(("h/.trice/cache"), ⟨0, 0⟩)]

/-- Witness for `triceIDCleaning_no_cache_write_on_error`: the transform
fails with error 7; the filesystem is exactly the transform's output
and no cleaned twin is written. -/
theorem triceIDCleaning_no_cache_write_witness :
    triceIDCleaning cfgW (fun f c _ => (f, c, some 7)) fsC10 [] [] ("s") 5
      = ⟨fsC10, [], [7], true⟩ :=
  triceIDCleaning_no_cache_write_on_error cfgW (fun f c _ => (f, c, some 7))
    fsC10 [] ("s") 5 fsC10 [] 7 rfl (by decide) (by decide) rfl
